import Mathlib

/-!
Verification of the solve/query engine of a chordal Gaussian Bayes net
(`gtsam/linear/GaussianBayesNet.cpp`): back-substitution (`optimize`),
transpose back-substitution, determinant queries, and delegation to a
reconstructed factor-graph view.

Machine doubles are modelled by exact rationals for the linear algebra and
by the reals for the logarithmic/exponential determinant queries.  The
Bayes-net container and its traversal orders are embedded from the source
file; the conditional-unit internals (`solve`, `solveOtherRHS`,
`solveTransposeInPlace`), the value-assignment store and the factor-graph
queries are not part of the source under verification and are modelled from
the specification, as indicated on each such definition.
-/

/-! ## Basic vector / matrix operations on rationals -/

abbrev Key := Nat

abbrev Vec := List ℚ

abbrev Mat := List (List ℚ)

def dotProd (a b : Vec) : ℚ := (List.zipWith (· * ·) a b).sum

def mulVec (M : Mat) (v : Vec) : Vec := M.map (fun r => dotProd r v)

def addVec (a b : Vec) : Vec := List.zipWith (· + ·) a b

def subVec (a b : Vec) : Vec := List.zipWith (· - ·) a b

def sumVecs (n : Nat) (vs : List Vec) : Vec := vs.foldl addVec (List.replicate n 0)

def diagOf (M : Mat) : Vec := M.enum.map (fun p => p.2.getD p.1 0)

/-- Matrix transpose, reading column `j` of every row (zero for short
rows); the column count is taken from the first row. -/
def matTranspose (M : Mat) : Mat :=
  (List.range M.headI.length).map (fun j => M.map (fun r => r.getD j 0))

/-- Back-substitution for an upper-triangular square matrix, structured on a
fuel argument equal to the row count so that it computes by structural
recursion: the first unknown is obtained from the first row once the tail
system (the matrix with first row and first column removed) is solved. -/
def backSubF : Nat → Mat → Vec → Vec
  | 0, _, _ => []
  | _ + 1, [], _ => []
  | n + 1, r :: rs, y =>
    let xt := backSubF n (rs.map List.tail) y.tail
    ((y.headI - dotProd r.tail xt) / r.headI) :: xt

def backSub (M : Mat) (y : Vec) : Vec := backSubF M.length M y

/-- Forward substitution for a lower-triangular square matrix (used for the
transpose-solve, where the transposed triangular block is lower
triangular). -/
def forwardSub (M : Mat) (y : Vec) : Vec :=
  (M.zip y).foldl
    (fun zs p => zs ++ [(p.2 - dotProd p.1 zs) / p.1.getD zs.length 0]) []

/-- Decides that a matrix is square, upper triangular, and has a nonzero
diagonal (fuel-structured like `backSubF`). -/
def utnzF : Nat → Mat → Bool
  | _, [] => true
  | 0, _ :: _ => false
  | n + 1, r :: rs =>
    (r.length == rs.length + 1) && !(r.headI == 0) &&
    rs.all (fun q => (q.length == rs.length + 1) && (q.headI == 0)) &&
    utnzF n (rs.map List.tail)

def utnzB (M : Mat) : Bool := utnzF M.length M

/-! ## The data model: value assignments and Gaussian conditionals -/

/-- Value assignment (`VectorValues`): association list from variable key to
its block vector.  Modelled from the spec: the store offers construction
from an existing assignment, keyed insert erroring on a duplicate key, and
keyed lookup erroring on a missing key. -/
abbrev VectorValues := List (Key × Vec)

inductive LinearError where
  | missingParent (k : Key)
  | duplicateVariable (k : Key)
  | missingKey (k : Key)
deriving DecidableEq

instance instDecEqExcept {ε α : Type} [DecidableEq ε] [DecidableEq α] :
    DecidableEq (Except ε α)
  | .ok a, .ok b =>
    if h : a = b then isTrue (by rw [h]) else isFalse (by simp [h])
  | .ok _, .error _ => isFalse (by simp)
  | .error _, .ok _ => isFalse (by simp)
  | .error e, .error f =>
    if h : e = f then isTrue (by rw [h]) else isFalse (by simp [h])

/-- Association-list lookup on keys (first match wins). -/
def lookupVV {α : Type} (k : Key) : List (Key × α) → Option α
  | [] => none
  | p :: s => if k = p.1 then some p.2 else lookupVV k s

def keysOf (s : VectorValues) : List Key := s.map (·.1)

def valueOf (s : VectorValues) (k : Key) : Vec := (lookupVV k s).getD []

def lookupE (s : VectorValues) (e : LinearError) (k : Key) : Except LinearError Vec :=
  match lookupVV k s with
  | some v => .ok v
  | none => .error e

/-- Looks up every key of a list, failing with `mk k` on the first key `k`
that is absent from the store. -/
def lookupAll (s : VectorValues) (mk : Key → LinearError) : List Key → Except LinearError (List Vec)
  | [] => .ok []
  | k :: ks =>
    match lookupVV k s with
    | some v =>
      match lookupAll s mk ks with
      | .ok vs => .ok (v :: vs)
      | .error e => .error e
    | none => .error (mk k)

def insertOne (s : VectorValues) (p : Key × Vec) : Except LinearError VectorValues :=
  if p.1 ∈ keysOf s then .error (.duplicateVariable p.1) else .ok (s ++ [p])

def insertAll : VectorValues → VectorValues → Except LinearError VectorValues
  | s, [] => .ok s
  | s, p :: ps =>
    match insertOne s p with
    | .ok s1 => insertAll s1 ps
    | .error e => .error e

/-- Distributes a solved frontal vector over the frontal keys according to
their block dimensions. -/
def splitVec : List (Key × Nat) → Vec → VectorValues
  | [], _ => []
  | (k, m) :: fs, x => (k, x.take m) :: splitVec fs (x.drop m)

/-- Whitening by a diagonal noise model: componentwise division of a vector
by the per-row scales.  Modelled from the spec glossary. -/
def whitenVec (sg v : Vec) : Vec := List.zipWith (· / ·) v sg

/-- Unwhitening: componentwise multiplication by the per-row scales. -/
def unwhitenVec (sg v : Vec) : Vec := List.zipWith (· * ·) sg v

/-- One Gaussian conditional in square-root information form
`R·x_f + Σ_j S_j·x_p_j = d`, optionally pre-whitened by a per-row noise
model: ordered frontal keys with their block dimensions, ordered parent
keys, the square upper-triangular block `R`, one `S` block per parent, the
right-hand side `d`, and the optional per-row scales. -/
structure GaussianConditional where
  frontals : List (Key × Nat)
  parents : List Key
  R : Mat
  S : List Mat
  d : Vec
  model : Option Vec
deriving DecidableEq

def GaussianConditional.frontalKeys (c : GaussianConditional) : List Key :=
  c.frontals.map (·.1)

def GaussianConditional.dim (c : GaussianConditional) : Nat := c.R.length

/-- Well-formedness of one conditional: `R` square upper triangular with a
nonzero diagonal, all row counts equal to `R`'s dimension, one `S` block
per parent, and frontal block dimensions summing to `R`'s dimension. -/
def GaussianConditional.wfB (c : GaussianConditional) : Bool :=
  utnzB c.R && (c.d.length == c.R.length) && (c.S.length == c.parents.length) &&
  c.S.all (fun B => B.length == c.R.length) &&
  (match c.model with
   | some sg => sg.length == c.R.length
   | none => true) &&
  ((c.frontals.map (·.2)).sum == c.R.length)

/-- The conditional's effective right-hand side `y`: the stored `d`,
unwhitened by the noise model when one is attached (the source comment:
solve `(R·x)./sigmas = y` as `x = inv(R)·(y.*sigmas)`). -/
def rhsBase (c : GaussianConditional) : Vec :=
  match c.model with
  | some sg => unwhitenVec sg c.d
  | none => c.d

/-- The reduced right-hand side `y - Σ_j S_j·x_p_j` for given parent
values. -/
def condRhs (c : GaussianConditional) (xps : List Vec) : Vec :=
  subVec (rhsBase c) (sumVecs c.dim (List.zipWith mulVec c.S xps))

/-- Modelled from the spec: `GaussianConditional::solve` (not under the
verified source): look up all parent values (missing-parent error
otherwise), then solve the local triangular system
`x_f = R⁻¹·(y - Σ_j S_j·x_p_j)` and split the result over the frontal
keys. -/
def GaussianConditional.solve (c : GaussianConditional) (s : VectorValues) :
    Except LinearError VectorValues :=
  match lookupAll s (fun k => .missingParent k) c.parents with
  | .ok xps => .ok (splitVec c.frontals (backSub c.R (condRhs c xps)))
  | .error e => .error e

/-- Modelled from the spec: `GaussianConditional::solveOtherRHS` (not under
the verified source): as `solve`, but against an externally supplied
right-hand side read off at the frontal keys instead of the stored `d`. -/
def GaussianConditional.solveOtherRHS (c : GaussianConditional)
    (par rhs : VectorValues) : Except LinearError VectorValues :=
  match lookupAll par (fun k => .missingParent k) c.parents with
  | .error e => .error e
  | .ok xps =>
    match lookupAll rhs (fun k => .missingKey k) c.frontalKeys with
    | .error e => .error e
    | .ok yf =>
      let y := match c.model with
        | some sg => unwhitenVec sg yf.flatten
        | none => yf.flatten
      .ok (splitVec c.frontals
        (backSub c.R (subVec y (sumVecs c.dim (List.zipWith mulVec c.S xps)))))

/-! ## The Bayes-net container and the solve engines -/

/-- The Bayes network: the ordered sequence of conditionals, in elimination
order. -/
abbrev GaussianBayesNet := List GaussianConditional

def frontalKeysL (L : List GaussianConditional) : List Key :=
  (L.map GaussianConditional.frontalKeys).flatten

def parentKeysL (L : List GaussianConditional) : List Key :=
  (L.map GaussianConditional.parents).flatten

/-- The loop body of `GaussianBayesNet::optimize`: traverse the given
processing list (the stored sequence reversed), solving each conditional
against the growing assignment and inserting its frontal blocks. -/
def optimizeRev : List GaussianConditional → VectorValues → Except LinearError VectorValues
  | [], s => .ok s
  | c :: rest, s =>
    match c.solve s with
    | .error e => .error e
    | .ok ps =>
      match insertAll s ps with
      | .error e => .error e
      | .ok s1 => optimizeRev rest s1

/-- `GaussianBayesNet::optimize(solutionForMissing)`: start from the
supplied partial assignment and back-substitute in reverse stored order. -/
def GaussianBayesNet.optimize (net : GaussianBayesNet)
    (solutionForMissing : VectorValues) : Except LinearError VectorValues :=
  optimizeRev net.reverse solutionForMissing

/-- The loop body of `GaussianBayesNet::backSubstitute`: like the optimize
loop, but starting from an empty assignment and solving each conditional
against the externally supplied right-hand side. -/
def backSubstituteRev (rhs : VectorValues) :
    List GaussianConditional → VectorValues → Except LinearError VectorValues
  | [], result => .ok result
  | c :: rest, result =>
    match c.solveOtherRHS result rhs with
    | .error e => .error e
    | .ok ps =>
      match insertAll result ps with
      | .error e => .error e
      | .ok r1 => backSubstituteRev rhs rest r1

def GaussianBayesNet.backSubstitute (net : GaussianBayesNet) (rhs : VectorValues) :
    Except LinearError VectorValues :=
  backSubstituteRev rhs net.reverse []

/-- Replaces the value stored at a key, leaving every other entry
untouched (no entry is created for an absent key). -/
def updateValue (s : VectorValues) (k : Key) (v : Vec) : VectorValues :=
  s.map (fun e => if e.1 = k then (k, v) else e)

def writeAll (s : VectorValues) (ps : VectorValues) : VectorValues :=
  ps.foldl (fun a p => updateValue a p.1 p.2) s

/-- The parent-correction loop of the transpose solve: subtract
`S_jᵗ·z` from each parent's current value. -/
def correctParents (z : Vec) :
    List (Key × Mat) → VectorValues → Except LinearError VectorValues
  | [], acc => .ok acc
  | pS :: rest, acc =>
    match lookupVV pS.1 acc with
    | none => .error (.missingParent pS.1)
    | some pv =>
      correctParents z rest (updateValue acc pS.1 (subVec pv (mulVec (matTranspose pS.2) z)))

/-- Modelled from the spec: `GaussianConditional::solveTransposeInPlace`
(not under the verified source): solve `Rᵗ·z = gy_f` on the frontal slice,
rescale by the noise model (`gy = gz.*sigmas` in the source comment), write
the frontal blocks, and propagate a correction into each parent block. -/
def GaussianConditional.solveTransposeInPlace (c : GaussianConditional)
    (gy : VectorValues) : Except LinearError VectorValues :=
  match lookupAll gy (fun k => .missingKey k) c.frontalKeys with
  | .error e => .error e
  | .ok fvs =>
    let z0 := forwardSub (matTranspose c.R) fvs.flatten
    let z := match c.model with
      | some sg => unwhitenVec sg z0
      | none => z0
    correctParents z (c.parents.zip c.S) (writeAll gy (splitVec c.frontals z))

def bstGo : List GaussianConditional → VectorValues → Except LinearError VectorValues
  | [], gy => .ok gy
  | c :: rest, gy =>
    match c.solveTransposeInPlace gy with
    | .error e => .error e
    | .ok gy1 => bstGo rest gy1

/-- `GaussianBayesNet::backSubstituteTranspose`: initialize the result from
the input and traverse the stored sequence in forward order, applying each
conditional's in-place transpose-solve step. -/
def GaussianBayesNet.backSubstituteTranspose (net : GaussianBayesNet)
    (gx : VectorValues) : Except LinearError VectorValues :=
  bstGo net gx

/-! ## Determinant engine -/

/-- One conditional's contribution to the log-determinant: the sum of the
logarithms of its `R`-diagonal entries, whitened by the noise model when
one is attached. -/
noncomputable def condLogDet (c : GaussianConditional) : ℝ :=
  match c.model with
  | some sg => ((whitenVec sg (diagOf c.R)).map (fun q => Real.log (q : ℝ))).sum
  | none => ((diagOf c.R).map (fun q => Real.log (q : ℝ))).sum

noncomputable def GaussianBayesNet.logDeterminant (net : GaussianBayesNet) : ℝ :=
  net.foldl (fun acc c => acc + condLogDet c) 0

noncomputable def GaussianBayesNet.determinant (net : GaussianBayesNet) : ℝ :=
  Real.exp (GaussianBayesNet.logDeterminant net)

/-- The per-row scales of a conditional, defaulting to unit scales when no
noise model is attached. -/
def sigmasOf (c : GaussianConditional) : Vec :=
  c.model.getD (List.replicate c.R.length 1)

/-! ## Factor-graph delegation bridge -/

/-- One weighted-residual linear factor: keys, one block per key, the
right-hand side, and the optional per-row noise scales. -/
structure GaussianFactor where
  keys : List Key
  blocks : List Mat
  b : Vec
  model : Option Vec
deriving DecidableEq

/-- Each conditional becomes one linear factor carrying the same
R/S/d/noise-model data. -/
def conditionalToFactor (c : GaussianConditional) : GaussianFactor :=
  ⟨c.frontalKeys ++ c.parents, c.R :: c.S, c.d, c.model⟩

def toFactorGraph (net : GaussianBayesNet) : List GaussianFactor :=
  net.map conditionalToFactor

def whitenOpt (m : Option Vec) (v : Vec) : Vec :=
  match m with
  | some sg => whitenVec sg v
  | none => v

/-- Modelled from the spec: the unwhitened residual `A·x - b` of one factor
(the factor-graph internals are not under the verified source). -/
def factorResidual (f : GaussianFactor) (x : VectorValues) : Vec :=
  subVec (sumVecs f.b.length (List.zipWith mulVec f.blocks (f.keys.map (valueOf x)))) f.b

/-- Modelled from the spec: the quadratic negative-log-density
`(1/2)·Σ_f ‖whiten(A·x - b)‖²` of the reconstructed graph. -/
def fgError (G : List GaussianFactor) (x : VectorValues) : ℚ :=
  (G.map (fun f => dotProd (whitenOpt f.model (factorResidual f x))
    (whitenOpt f.model (factorResidual f x)))).sum / 2

def addInto (s : VectorValues) (k : Key) (v : Vec) : VectorValues :=
  match lookupVV k s with
  | some w => updateValue s k (addVec w v)
  | none => s ++ [(k, v)]

/-- Modelled from the spec: the gradient of the quadratic form at `x`,
accumulating `A_kᵗ·W²·(A·x - b)` into each key's slot. -/
def fgGradient (G : List GaussianFactor) (x : VectorValues) : VectorValues :=
  G.foldl (fun acc f =>
    let wr := whitenOpt f.model (whitenOpt f.model (factorResidual f x))
    (f.keys.zip f.blocks).foldl
      (fun a kB => addInto a kB.1 (mulVec (matTranspose kB.2) wr)) acc) []

/-- Modelled from the spec: the gradient at the origin. -/
def fgGradientAtZero (G : List GaussianFactor) : VectorValues := fgGradient G []

def blockCols (M : Mat) : Nat := M.headI.length

def keyDimIn (G : List GaussianFactor) (k : Key) : Nat :=
  match lookupVV k (G.map (fun f => f.keys.zip f.blocks)).flatten with
  | some B => blockCols B
  | none => 0

/-- One dense Jacobian row: the `i`-th row of factor `f`, laid out over the
global key ordering `ks`, with zero filling for keys the factor does not
reference. -/
def denseRow (G : List GaussianFactor) (ks : List Key) (f : GaussianFactor) (i : Nat) : Vec :=
  (ks.map (fun k =>
    match lookupVV k (f.keys.zip f.blocks) with
    | some B => B.getD i []
    | none => List.replicate (keyDimIn G k) 0)).flatten

/-- Modelled from the spec: the dense Jacobian and right-hand-side pair
equivalent to stacking every factor's rows. -/
def fgJacobian (G : List GaussianFactor) : Mat × Vec :=
  let ks := ((G.map (fun f => f.keys)).flatten).dedup
  ((G.map (fun f => (List.range f.b.length).map (fun i => denseRow G ks f i))).flatten,
   (G.map (fun f => f.b)).flatten)

/-- `GaussianBayesNet::gradient`: delegation to the reconstructed graph. -/
def GaussianBayesNet.gradient (net : GaussianBayesNet) (x0 : VectorValues) : VectorValues :=
  fgGradient (toFactorGraph net) x0

/-- `GaussianBayesNet::gradientAtZero`: delegation to the reconstructed graph. -/
def GaussianBayesNet.gradientAtZero (net : GaussianBayesNet) : VectorValues :=
  fgGradientAtZero (toFactorGraph net)

/-- `GaussianBayesNet::error`: delegation to the reconstructed graph. -/
def GaussianBayesNet.error (net : GaussianBayesNet) (x : VectorValues) : ℚ :=
  fgError (toFactorGraph net) x

/-- `GaussianBayesNet::matrix`: delegation to the reconstructed graph's
Jacobian query. -/
def GaussianBayesNet.matrix (net : GaussianBayesNet) : Mat × Vec :=
  fgJacobian (toFactorGraph net)

/-! ## Resolvability of parents along the processing order -/

/-- Decides that, along the given processing list, every conditional's
parent keys are available: already among `ks` (the keys of the assignment
at that point) or frontal keys of an earlier-processed conditional. -/
def resolvableRevB : List GaussianConditional → List Key → Bool
  | [], _ => true
  | c :: rest, ks =>
    c.parents.all (fun k => decide (k ∈ ks)) &&
    resolvableRevB rest (ks ++ c.frontalKeys)

/-- The concatenation of a conditional's frontal values inside an
assignment. -/
def frontalVecOf (c : GaussianConditional) (s : VectorValues) : Vec :=
  (c.frontalKeys.map (valueOf s)).flatten

/-! ## Concrete networks used as test vectors -/

/-- Conditional A of the hand-built chain: frontal `x1`, parent `x2`,
`R = [[2]]`, `S = [[1]]`, `d = [5]`, no noise model. -/
def condA : GaussianConditional := ⟨[(1, 1)], [2], [[2]], [[[1]]], [5], none⟩

/-- Conditional B of the hand-built chain: frontal `x2`, no parents,
`R = [[1]]`, `d = [3]`. -/
def condB : GaussianConditional := ⟨[(2, 1)], [], [[1]], [], [3], none⟩

def exNet : GaussianBayesNet := [condA, condB]

/-- Conditional A with a noise model of per-row scale 2 attached. -/
def condAW : GaussianConditional := ⟨[(1, 1)], [2], [[2]], [[[1]]], [5], some [2]⟩

def exNetW : GaussianBayesNet := [condAW, condB]

/-- A single conditional with frontal `x1` and external parent `x2`, used
to exercise the transpose-solve's parent correction. -/
def cexCond : GaussianConditional := ⟨[(1, 1)], [2], [[1]], [[[1]]], [0], none⟩

/-! ## Basic lemmas about the vector operations -/

theorem dotProd_cons (a : ℚ) (as : Vec) (b : ℚ) (bs : Vec) :
    dotProd (a :: as) (b :: bs) = a * b + dotProd as bs := by
  simp [dotProd]

theorem mulVec_length (M : Mat) (v : Vec) : (mulVec M v).length = M.length := by
  simp [mulVec]

theorem addVec_length (a b : Vec) : (addVec a b).length = min a.length b.length := by
  simp [addVec]

theorem subVec_length (a b : Vec) : (subVec a b).length = min a.length b.length := by
  simp [subVec]

theorem foldl_addVec_length (vs : List Vec) (n : Nat) :
    ∀ acc : Vec, acc.length = n → (∀ v ∈ vs, v.length = n) →
      (vs.foldl addVec acc).length = n := by
  induction vs with
  | nil => intro acc h _; simpa using h
  | cons v vs ih =>
    intro acc hacc hall
    simp only [List.foldl_cons]
    exact ih (addVec acc v)
      (by rw [addVec_length, hacc, hall v (by simp)]; omega)
      (fun w hw => hall w (by simp [hw]))

theorem sumVecs_length (n : Nat) (vs : List Vec) (h : ∀ v ∈ vs, v.length = n) :
    (sumVecs n vs).length = n :=
  foldl_addVec_length vs n (List.replicate n 0) (by simp) h

theorem zipWith_mulVec_length (n : Nat) (S : List Mat) (hS : ∀ B ∈ S, B.length = n) :
    ∀ xs : List Vec, ∀ v ∈ List.zipWith mulVec S xs, v.length = n := by
  induction S with
  | nil => intro xs v hv; simp at hv
  | cons B S ih =>
    intro xs v hv
    cases xs with
    | nil => simp at hv
    | cons x xs =>
      simp only [List.zipWith_cons_cons, List.mem_cons] at hv
      rcases hv with rfl | hv
      · rw [mulVec_length]; exact hS B (by simp)
      · exact ih (fun B2 h2 => hS B2 (by simp [h2])) xs v hv

theorem diagOf_length (M : Mat) : (diagOf M).length = M.length := by
  simp [diagOf]

/-! ## Correctness of triangular back-substitution -/

theorem backSubF_length : ∀ (n : Nat) (M : Mat) (y : Vec), M.length = n →
    (backSubF n M y).length = n := by
  intro n
  induction n with
  | zero => intro M y _; simp [backSubF]
  | succ n ih =>
    intro M y hM
    cases M with
    | nil => simp at hM
    | cons r rs =>
      simp only [backSubF, List.length_cons]
      rw [ih (rs.map List.tail) y.tail (by simpa using Nat.succ_injective hM)]

theorem mulVec_heads_zero (rs : Mat) (x0 : ℚ) (xt : Vec)
    (h : ∀ q ∈ rs, q.length = rs.length + 1 ∧ q.headI = 0) :
    mulVec rs (x0 :: xt) = mulVec (rs.map List.tail) xt := by
  simp only [mulVec, List.map_map]
  refine List.map_congr_left ?_
  intro q hq
  obtain ⟨hlen, hhead⟩ := h q hq
  have hne : q ≠ [] := by intro e; rw [e] at hlen; simp at hlen
  obtain ⟨a, as, rfl⟩ := List.exists_cons_of_ne_nil hne
  simp only [List.headI] at hhead
  subst hhead
  simp [dotProd_cons]

theorem backSubF_spec : ∀ (n : Nat) (M : Mat) (y : Vec), M.length = n →
    utnzF n M = true → y.length = n → mulVec M (backSubF n M y) = y := by
  intro n
  induction n with
  | zero =>
    intro M y hM _ hy
    rw [List.length_eq_zero] at hM hy
    subst hM; subst hy
    rfl
  | succ n ih =>
    intro M y hM hU hy
    cases M with
    | nil => simp at hM
    | cons r rs =>
      have hrs : rs.length = n := by simpa using Nat.succ_injective hM
      simp only [utnzF, Bool.and_eq_true, beq_iff_eq, Bool.not_eq_eq_eq_not,
        Bool.not_true, List.all_eq_true] at hU
      obtain ⟨⟨⟨hrlen, hr0⟩, hall⟩, hrec⟩ := hU
      have hr0' : r.headI ≠ 0 := by
        intro e; rw [e] at hr0; simp at hr0
      cases y with
      | nil => simp at hy
      | cons y0 yt =>
        have hyt : yt.length = n := by simpa using Nat.succ_injective hy
        have hrne : r ≠ [] := by
          intro e; rw [e] at hrlen; simp at hrlen
        obtain ⟨r0, rt, rfl⟩ := List.exists_cons_of_ne_nil hrne
        simp only [backSubF, List.tail_cons, List.headI]
        simp only [List.headI] at hr0'
        have hIH := ih (rs.map List.tail) yt (by simpa using hrs) hrec hyt
        simp only [mulVec, List.map_cons] at hIH ⊢
        rw [List.cons.injEq]
        constructor
        · rw [dotProd_cons]
          field_simp
        · have := mulVec_heads_zero rs
            ((y0 - dotProd rt (backSubF n (rs.map List.tail) yt)) / r0)
            (backSubF n (rs.map List.tail) yt) hall
          simp only [mulVec] at this
          rw [this]
          exact hIH

theorem backSub_spec (M : Mat) (y : Vec) (hU : utnzB M = true)
    (hy : y.length = M.length) : mulVec M (backSub M y) = y :=
  backSubF_spec M.length M y rfl hU hy

theorem backSub_length (M : Mat) (y : Vec) : (backSub M y).length = M.length :=
  backSubF_length M.length M y rfl

/-! ## Lemmas about the value-assignment store -/

theorem keysOf_append (s t : VectorValues) : keysOf (s ++ t) = keysOf s ++ keysOf t := by
  simp [keysOf]

theorem lookupVV_isSome {k : Key} : ∀ {s : VectorValues},
    (lookupVV k s).isSome = true ↔ k ∈ keysOf s := by
  intro s
  induction s with
  | nil => simp [lookupVV, keysOf]
  | cons p s ih =>
    simp only [lookupVV, keysOf, List.map_cons, List.mem_cons]
    by_cases h : k = p.1
    · simp [h]
    · simp [h, ih, keysOf]

theorem lookupVV_eq_some_valueOf {k : Key} {s : VectorValues} (h : k ∈ keysOf s) :
    lookupVV k s = some (valueOf s k) := by
  have := lookupVV_isSome.mpr h
  obtain ⟨v, hv⟩ := Option.isSome_iff_exists.mp this
  rw [valueOf, hv]
  rfl

theorem lookupVV_eq_none {k : Key} {s : VectorValues} (h : k ∉ keysOf s) :
    lookupVV k s = none := by
  cases hv : lookupVV k s with
  | none => rfl
  | some v =>
    exact absurd (lookupVV_isSome.mp (by rw [hv]; rfl)) h

theorem lookupVV_append_left {k : Key} {s : VectorValues} (t : VectorValues)
    (h : k ∈ keysOf s) : lookupVV k (s ++ t) = lookupVV k s := by
  induction s with
  | nil => simp [keysOf] at h
  | cons p s ih =>
    simp only [List.cons_append, lookupVV]
    by_cases hk : k = p.1
    · simp [hk]
    · simp only [hk, if_false]
      refine ih ?_
      simp only [keysOf, List.map_cons, List.mem_cons] at h
      tauto

theorem lookupVV_append_right {k : Key} {s : VectorValues} (t : VectorValues)
    (h : k ∉ keysOf s) : lookupVV k (s ++ t) = lookupVV k t := by
  induction s with
  | nil => simp
  | cons p s ih =>
    simp only [keysOf, List.map_cons, List.mem_cons] at h
    push_neg at h
    simp only [List.cons_append, lookupVV, h.1, if_false]
    exact ih h.2

theorem lookupVV_mono {k : Key} {s : VectorValues} (t : VectorValues) {v : Vec}
    (h : lookupVV k s = some v) : lookupVV k (s ++ t) = some v := by
  have hm : k ∈ keysOf s := lookupVV_isSome.mp (by rw [h]; rfl)
  rw [lookupVV_append_left t hm, h]

theorem insertOne_dup (s : VectorValues) (k : Key) (v : Vec) (h : k ∈ keysOf s) :
    insertOne s (k, v) = .error (.duplicateVariable k) := by
  simp [insertOne, h]

theorem insertAll_ok_append : ∀ (ps : VectorValues) (s s1 : VectorValues),
    insertAll s ps = .ok s1 → s1 = s ++ ps := by
  intro ps
  induction ps with
  | nil => intro s s1 h; simp only [insertAll] at h; cases h; simp
  | cons p ps ih =>
    intro s s1 h
    simp only [insertAll, insertOne] at h
    by_cases hk : p.1 ∈ keysOf s
    · simp [hk] at h
    · simp only [hk, if_false] at h
      have := ih (s ++ [p]) s1 h
      rw [this, List.append_assoc, List.singleton_append]

theorem insertAll_ok_of : ∀ (ps : VectorValues) (s : VectorValues),
    (keysOf ps).Nodup → (∀ k ∈ keysOf ps, k ∉ keysOf s) →
    insertAll s ps = .ok (s ++ ps) := by
  intro ps
  induction ps with
  | nil => intro s _ _; simp [insertAll]
  | cons p ps ih =>
    intro s hnd hdis
    have hp : p.1 ∉ keysOf s := hdis p.1 (by simp [keysOf])
    simp only [insertAll, insertOne, hp, if_false]
    rw [keysOf, List.map_cons, List.nodup_cons] at hnd
    have := ih (s ++ [p]) hnd.2 ?_
    · rw [this, List.append_assoc, List.singleton_append]
    · intro k hk
      rw [keysOf_append]
      simp only [List.mem_append]
      push_neg
      refine ⟨hdis k (by simp only [keysOf, List.map_cons, List.mem_cons]; right; exact hk), ?_⟩
      simp only [keysOf, List.map_cons, List.map_nil]
      intro hc
      simp only [List.mem_singleton] at hc
      exact hnd.1 (hc ▸ hk)

theorem lookupAll_ok_of (s : VectorValues) (mk : Key → LinearError) :
    ∀ (ks : List Key), (∀ k ∈ ks, k ∈ keysOf s) →
      lookupAll s mk ks = .ok (ks.map (valueOf s)) := by
  intro ks
  induction ks with
  | nil => intro _; rfl
  | cons k ks ih =>
    intro h
    have hk := lookupVV_eq_some_valueOf (h k (by simp))
    simp only [lookupAll, hk, ih (fun k2 h2 => h k2 (by simp [h2])), List.map_cons]

theorem lookupAll_ok_mem (s : VectorValues) (mk : Key → LinearError) :
    ∀ (ks : List Key) (vs : List Vec), lookupAll s mk ks = .ok vs →
      ∀ k ∈ ks, k ∈ keysOf s := by
  intro ks
  induction ks with
  | nil => intro vs _ k hk; simp at hk
  | cons k0 ks ih =>
    intro vs h k hk
    simp only [lookupAll] at h
    cases hc : lookupVV k0 s with
    | none => rw [hc] at h; simp at h
    | some v =>
      rw [hc] at h
      have hk0 : k0 ∈ keysOf s := lookupVV_isSome.mp (by rw [hc]; rfl)
      cases hr : lookupAll s mk ks with
      | error e => rw [hr] at h; simp at h
      | ok vs2 =>
        simp only [List.mem_cons] at hk
        rcases hk with rfl | hk
        · exact hk0
        · exact ih vs2 hr k hk

theorem lookupAll_error_shape (s : VectorValues) (mk : Key → LinearError) :
    ∀ (ks : List Key) (e : LinearError), lookupAll s mk ks = .error e →
      ∃ k, e = mk k := by
  intro ks
  induction ks with
  | nil => intro e h; simp [lookupAll] at h
  | cons k0 ks ih =>
    intro e h
    simp only [lookupAll] at h
    cases hc : lookupVV k0 s with
    | none => rw [hc] at h; exact ⟨k0, by cases h; rfl⟩
    | some v =>
      rw [hc] at h
      cases hr : lookupAll s mk ks with
      | error e2 =>
        rw [hr] at h
        injection h with he
        exact he ▸ ih e2 hr
      | ok vs => rw [hr] at h; simp at h

/-! ## Lemmas about splitting the frontal vector -/

theorem splitVec_keys : ∀ (fs : List (Key × Nat)) (x : Vec),
    keysOf (splitVec fs x) = fs.map (·.1) := by
  intro fs
  induction fs with
  | nil => intro x; rfl
  | cons p fs ih =>
    intro x
    obtain ⟨k, m⟩ := p
    simp [splitVec, keysOf, ih] at *
    exact ih (x.drop m)

theorem splitVec_flatten : ∀ (fs : List (Key × Nat)) (x : Vec),
    (fs.map (·.2)).sum = x.length →
    ((splitVec fs x).map (·.2)).flatten = x := by
  intro fs
  induction fs with
  | nil =>
    intro x h
    simp only [List.map_nil, List.sum_nil] at h
    simp [splitVec, List.length_eq_zero.mp h.symm]
  | cons p fs ih =>
    intro x h
    obtain ⟨k, m⟩ := p
    simp only [List.map_cons, List.sum_cons] at h
    simp only [splitVec, List.map_cons, List.flatten_cons]
    rw [ih (x.drop m) (by simp; omega)]
    exact List.take_append_drop m x

theorem splitVec_readback : ∀ (fs : List (Key × Nat)) (x : Vec),
    (fs.map (·.1)).Nodup → (fs.map (·.2)).sum = x.length →
    ((fs.map (·.1)).map (valueOf (splitVec fs x))).flatten = x := by
  intro fs
  induction fs with
  | nil =>
    intro x _ h
    simp only [List.map_nil, List.sum_nil] at h
    simp [List.length_eq_zero.mp h.symm]
  | cons p fs ih =>
    intro x hnd hsum
    obtain ⟨k, m⟩ := p
    simp only [List.map_cons, List.sum_cons] at hsum
    simp only [List.map_cons, List.nodup_cons] at hnd
    simp only [splitVec, List.map_cons, List.flatten_cons]
    have hhead : valueOf ((k, x.take m) :: splitVec fs (x.drop m)) k = x.take m := by
      simp [valueOf, lookupVV]
    rw [hhead]
    have htail : (fs.map (·.1)).map (valueOf ((k, x.take m) :: splitVec fs (x.drop m)))
        = (fs.map (·.1)).map (valueOf (splitVec fs (x.drop m))) := by
      refine List.map_congr_left ?_
      intro k2 hk2
      have : k2 ≠ k := fun e => hnd.1 (e ▸ hk2)
      simp [valueOf, lookupVV, this]
    rw [htail, ih (x.drop m) hnd.2 (by simp; omega)]
    exact List.take_append_drop m x

/-! ## Lemmas about conditionals and the optimize loop -/

theorem wfB_parts (c : GaussianConditional) (h : c.wfB = true) :
    utnzB c.R = true ∧ c.d.length = c.R.length ∧ c.S.length = c.parents.length ∧
    (∀ B ∈ c.S, B.length = c.R.length) ∧
    (∀ sg, c.model = some sg → sg.length = c.R.length) ∧
    (c.frontals.map (·.2)).sum = c.R.length := by
  simp only [GaussianConditional.wfB, Bool.and_eq_true, beq_iff_eq,
    List.all_eq_true] at h
  obtain ⟨⟨⟨⟨⟨h1, h2⟩, h3⟩, h4⟩, h5⟩, h6⟩ := h
  refine ⟨h1, h2, h3, fun B hB => ?_, fun sg hsg => ?_, h6⟩
  · have := h4 B hB
    simpa using this
  · rw [hsg] at h5
    simpa using h5

theorem rhsBase_length (c : GaussianConditional) (h : c.wfB = true) :
    (rhsBase c).length = c.R.length := by
  obtain ⟨_, hd, _, _, hmod, _⟩ := wfB_parts c h
  cases hm : c.model with
  | none => simp [rhsBase, hm, hd]
  | some sg =>
    simp only [rhsBase, hm, unwhitenVec, List.length_zipWith]
    rw [hmod sg hm, hd]
    omega

theorem condRhs_length (c : GaussianConditional) (h : c.wfB = true) (xps : List Vec) :
    (condRhs c xps).length = c.R.length := by
  obtain ⟨_, _, _, hSall, _, _⟩ := wfB_parts c h
  have hsum : (sumVecs c.dim (List.zipWith mulVec c.S xps)).length = c.R.length := by
    simp only [GaussianConditional.dim]
    exact sumVecs_length _ _ (zipWith_mulVec_length c.R.length c.S hSall xps)
  rw [condRhs, subVec_length, rhsBase_length c h, hsum]
  omega

theorem solve_ok_of (c : GaussianConditional) (s : VectorValues)
    (hpar : ∀ k ∈ c.parents, k ∈ keysOf s) :
    c.solve s = .ok (splitVec c.frontals (backSub c.R (condRhs c (c.parents.map (valueOf s))))) := by
  simp only [GaussianConditional.solve, lookupAll_ok_of s _ c.parents hpar]

theorem solve_ok_keys (c : GaussianConditional) (s : VectorValues) (ps : VectorValues)
    (h : c.solve s = .ok ps) : keysOf ps = c.frontalKeys := by
  simp only [GaussianConditional.solve] at h
  cases hl : lookupAll s (fun k => .missingParent k) c.parents with
  | error e => rw [hl] at h; simp at h
  | ok xps =>
    rw [hl] at h
    injection h with he
    rw [← he, splitVec_keys]
    rfl

theorem solve_ok_parents (c : GaussianConditional) (s : VectorValues) (ps : VectorValues)
    (h : c.solve s = .ok ps) : ∀ k ∈ c.parents, k ∈ keysOf s := by
  simp only [GaussianConditional.solve] at h
  cases hl : lookupAll s (fun k => .missingParent k) c.parents with
  | error e => rw [hl] at h; simp at h
  | ok xps => exact lookupAll_ok_mem s _ c.parents xps hl

theorem solve_error_shape (c : GaussianConditional) (s : VectorValues) (e : LinearError)
    (h : c.solve s = .error e) : ∃ k, e = .missingParent k := by
  simp only [GaussianConditional.solve] at h
  cases hl : lookupAll s (fun k => .missingParent k) c.parents with
  | error e2 =>
    rw [hl] at h
    injection h with he
    obtain ⟨k, hk⟩ := lookupAll_error_shape s _ c.parents e2 hl
    exact ⟨k, he ▸ hk⟩
  | ok xps => rw [hl] at h; simp at h

theorem frontalKeysL_nil : frontalKeysL [] = [] := rfl

theorem frontalKeysL_cons (c : GaussianConditional) (L : List GaussianConditional) :
    frontalKeysL (c :: L) = c.frontalKeys ++ frontalKeysL L := by
  simp [frontalKeysL]

theorem flatten_reverse_perm : ∀ (L : List (List Key)),
    (L.reverse.flatten).Perm L.flatten := by
  intro L
  induction L with
  | nil => simp
  | cons a L ih =>
    simp only [List.reverse_cons, List.flatten_append, List.flatten_cons,
      List.flatten_nil, List.append_nil]
    have h1 : (L.reverse.flatten ++ a).Perm (a ++ L.reverse.flatten) :=
      List.perm_append_comm
    exact h1.trans (ih.append_left a)

theorem frontalKeysL_reverse_perm (L : List GaussianConditional) :
    (frontalKeysL L.reverse).Perm (frontalKeysL L) := by
  unfold frontalKeysL
  rw [List.map_reverse]
  exact flatten_reverse_perm (L.map GaussianConditional.frontalKeys)

theorem mem_frontalKeysL_reverse (L : List GaussianConditional) (k : Key) :
    k ∈ frontalKeysL L.reverse ↔ k ∈ frontalKeysL L :=
  (frontalKeysL_reverse_perm L).mem_iff

theorem nodup_frontalKeysL_reverse (L : List GaussianConditional)
    (h : (frontalKeysL L).Nodup) : (frontalKeysL L.reverse).Nodup :=
  (frontalKeysL_reverse_perm L).symm.nodup h

theorem resolvableRevB_cons {c : GaussianConditional} {L : List GaussianConditional}
    {ks : List Key} (h : resolvableRevB (c :: L) ks = true) :
    (∀ k ∈ c.parents, k ∈ ks) ∧ resolvableRevB L (ks ++ c.frontalKeys) = true := by
  simp only [resolvableRevB, Bool.and_eq_true, List.all_eq_true,
    decide_eq_true_eq] at h
  exact h

theorem optimizeRev_cons_ok {c : GaussianConditional} {L : List GaussianConditional}
    {s s1 : VectorValues} (h : optimizeRev (c :: L) s = .ok s1) :
    ∃ ps s2, c.solve s = .ok ps ∧ insertAll s ps = .ok s2 ∧ optimizeRev L s2 = .ok s1 := by
  simp only [optimizeRev] at h
  cases hs : c.solve s with
  | error e => simp [hs] at h
  | ok ps =>
    simp only [hs] at h
    cases hi : insertAll s ps with
    | error e => simp [hi] at h
    | ok s2 =>
      simp only [hi] at h
      exact ⟨ps, s2, rfl, hi, h⟩

theorem optimizeRev_ok_keys : ∀ (L : List GaussianConditional) (s s1 : VectorValues),
    optimizeRev L s = .ok s1 →
    ∀ k, k ∈ keysOf s1 ↔ k ∈ keysOf s ∨ k ∈ frontalKeysL L := by
  intro L
  induction L with
  | nil =>
    intro s s1 h k
    simp only [optimizeRev] at h
    injection h with he
    rw [he, frontalKeysL_nil]
    simp
  | cons c L ih =>
    intro s s1 h k
    obtain ⟨ps, s2, hs, hi, hrest⟩ := optimizeRev_cons_ok h
    have hs2 : s2 = s ++ ps := insertAll_ok_append ps s s2 hi
    have hkeys : keysOf ps = c.frontalKeys := solve_ok_keys c s ps hs
    rw [ih s2 s1 hrest k, hs2, keysOf_append, hkeys, frontalKeysL_cons]
    simp only [List.mem_append]
    tauto

/-- The workhorse invariant for the optimize loop: under well-formedness,
resolvability along the processing order, and distinct frontal keys, the
loop succeeds, extends the assignment monotonically, produces exactly the
initial keys plus all frontal keys, and every processed conditional's
triangular equation holds in the final assignment. -/
theorem optimizeRev_sound : ∀ (L : List GaussianConditional) (s : VectorValues),
    (∀ c ∈ L, c.wfB = true) →
    resolvableRevB L (keysOf s) = true →
    (frontalKeysL L).Nodup →
    (∀ k ∈ frontalKeysL L, k ∉ keysOf s) →
    ∃ s1, optimizeRev L s = .ok s1 ∧
      (∀ k v, lookupVV k s = some v → lookupVV k s1 = some v) ∧
      (∀ k, k ∈ keysOf s1 ↔ k ∈ keysOf s ∨ k ∈ frontalKeysL L) ∧
      (∀ c ∈ L, mulVec c.R (frontalVecOf c s1) = condRhs c (c.parents.map (valueOf s1))) := by
  intro L
  induction L with
  | nil =>
    intro s _ _ _ _
    exact ⟨s, rfl, fun k v h => h, by simp [frontalKeysL_nil], by simp⟩
  | cons c L ih =>
    intro s hwf hres hnd hdis
    obtain ⟨hparents, hres2⟩ := resolvableRevB_cons hres
    have hwfc : c.wfB = true := hwf c (by simp)
    obtain ⟨hU, hd, hSlen, hSall, hmod, hfsum⟩ := wfB_parts c hwfc
    rw [frontalKeysL_cons] at hnd hdis
    rw [List.nodup_append] at hnd
    obtain ⟨hndc, hndL, hdisjcL⟩ := hnd
    have hdisc : ∀ k ∈ c.frontalKeys, k ∉ keysOf s :=
      fun k hk => hdis k (List.mem_append_left _ hk)
    have hdisL : ∀ k ∈ frontalKeysL L, k ∉ keysOf s :=
      fun k hk => hdis k (List.mem_append_right _ hk)
    set x := backSub c.R (condRhs c (c.parents.map (valueOf s))) with hx
    have hsolve : c.solve s = .ok (splitVec c.frontals x) := solve_ok_of c s hparents
    have hkeysps : keysOf (splitVec c.frontals x) = c.frontalKeys := by
      rw [splitVec_keys]; rfl
    have hinsert : insertAll s (splitVec c.frontals x) = .ok (s ++ splitVec c.frontals x) :=
      insertAll_ok_of _ s (by rw [hkeysps]; exact hndc)
        (by rw [hkeysps]; exact hdisc)
    set s2 := s ++ splitVec c.frontals x with hs2
    have hkeys2 : keysOf s2 = keysOf s ++ c.frontalKeys := by
      rw [hs2, keysOf_append, hkeysps]
    have hres2' : resolvableRevB L (keysOf s2) = true := by rw [hkeys2]; exact hres2
    have hdis2 : ∀ k ∈ frontalKeysL L, k ∉ keysOf s2 := by
      intro k hk
      rw [hkeys2]
      simp only [List.mem_append]
      push_neg
      exact ⟨hdisL k hk, fun hc => hdisjcL hc hk⟩
    obtain ⟨s1, hrun, hpres, hkeys1, heqs⟩ :=
      ih s2 (fun c2 h2 => hwf c2 (by simp [h2])) hres2' hndL hdis2
    -- the frontal blocks of `c` can be read back from any extension of `s2`
    have hxlen : x.length = c.R.length := backSub_length c.R _
    have hfront : ∀ kf ∈ c.frontalKeys, lookupVV kf s1 = lookupVV kf (splitVec c.frontals x) := by
      intro kf hkf
      have h1 : lookupVV kf s2 = lookupVV kf (splitVec c.frontals x) :=
        lookupVV_append_right _ (hdisc kf hkf)
      have h2 : kf ∈ keysOf (splitVec c.frontals x) := by rw [hkeysps]; exact hkf
      have h3 := lookupVV_eq_some_valueOf h2
      rw [h3]
      exact hpres kf _ (h1.trans h3)
    have hreadback : frontalVecOf c s1 = x := by
      rw [frontalVecOf]
      have hmapeq : c.frontalKeys.map (valueOf s1)
          = c.frontalKeys.map (valueOf (splitVec c.frontals x)) := by
        refine List.map_congr_left ?_
        intro kf hkf
        rw [valueOf, valueOf, hfront kf hkf]
      rw [hmapeq]
      have := splitVec_readback c.frontals x hndc (by rw [hfsum, ← hxlen])
      exact this
    have hparfinal : c.parents.map (valueOf s1) = c.parents.map (valueOf s) := by
      refine List.map_congr_left ?_
      intro kp hkp
      have h1 : lookupVV kp s = some (valueOf s kp) :=
        lookupVV_eq_some_valueOf (hparents kp hkp)
      have h2 : lookupVV kp s2 = some (valueOf s kp) := lookupVV_mono _ h1
      have h3 := hpres kp _ h2
      rw [valueOf, h3]
      rfl
    refine ⟨s1, ?_, ?_, ?_, ?_⟩
    · simp only [optimizeRev, hsolve, hinsert, ← hs2]
      exact hrun
    · intro k v hkv
      exact hpres k v (lookupVV_mono _ hkv)
    · intro k
      rw [hkeys1 k, hkeys2, frontalKeysL_cons]
      simp only [List.mem_append]
      tauto
    · intro c2 hc2
      rcases List.mem_cons.mp hc2 with rfl | hc2
      · rw [hreadback, hparfinal, hx]
        exact backSub_spec c2.R _ hU (condRhs_length c2 hwfc _)
      · exact heqs c2 hc2

/-! ## Failure analysis of the optimize loop -/

theorem optimizeRev_ok_or : ∀ (L : List GaussianConditional) (s : VectorValues),
    (frontalKeysL L).Nodup → (∀ k ∈ frontalKeysL L, k ∉ keysOf s) →
    (∃ s1, optimizeRev L s = .ok s1) ∨
    (∃ k, optimizeRev L s = .error (.missingParent k)) := by
  intro L
  induction L with
  | nil => intro s _ _; exact .inl ⟨s, rfl⟩
  | cons c L ih =>
    intro s hnd hdis
    rw [frontalKeysL_cons] at hnd hdis
    rw [List.nodup_append] at hnd
    obtain ⟨hndc, hndL, hdisj⟩ := hnd
    cases hs : c.solve s with
    | error e =>
      obtain ⟨k, rfl⟩ := solve_error_shape c s e hs
      exact .inr ⟨k, by simp [optimizeRev, hs]⟩
    | ok ps =>
      have hkeysps : keysOf ps = c.frontalKeys := solve_ok_keys c s ps hs
      have hinsert : insertAll s ps = .ok (s ++ ps) :=
        insertAll_ok_of ps s (by rw [hkeysps]; exact hndc)
          (by rw [hkeysps]; intro k hk; exact hdis k (List.mem_append_left _ hk))
      have hdis2 : ∀ k ∈ frontalKeysL L, k ∉ keysOf (s ++ ps) := by
        intro k hk
        rw [keysOf_append, hkeysps]
        simp only [List.mem_append]
        push_neg
        exact ⟨hdis k (List.mem_append_right _ hk), fun hc => hdisj hc hk⟩
      rcases ih (s ++ ps) hndL hdis2 with ⟨s1, h1⟩ | ⟨k, h1⟩
      · exact .inl ⟨s1, by simp [optimizeRev, hs, hinsert, h1]⟩
      · exact .inr ⟨k, by simp [optimizeRev, hs, hinsert, h1]⟩

theorem optimizeRev_ok_parents : ∀ (L1 : List GaussianConditional)
    (c : GaussianConditional) (L2 : List GaussianConditional) (s s1 : VectorValues),
    optimizeRev (L1 ++ c :: L2) s = .ok s1 →
    ∀ k ∈ c.parents, k ∈ keysOf s ∨ k ∈ frontalKeysL L1 := by
  intro L1
  induction L1 with
  | nil =>
    intro c L2 s s1 h k hk
    obtain ⟨ps, s2, hsolve, _, _⟩ := optimizeRev_cons_ok (by simpa using h)
    exact .inl (solve_ok_parents c s ps hsolve k hk)
  | cons c1 L1 ih =>
    intro c L2 s s1 h k hk
    obtain ⟨ps, s2, hsolve, hins, hrest⟩ := optimizeRev_cons_ok (by simpa using h)
    have hs2 : s2 = s ++ ps := insertAll_ok_append ps s s2 hins
    have hkeysps : keysOf ps = c1.frontalKeys := solve_ok_keys c1 s ps hsolve
    rcases ih c L2 s2 s1 hrest k hk with h1 | h1
    · rw [hs2, keysOf_append, hkeysps] at h1
      rcases List.mem_append.mp h1 with h2 | h2
      · exact .inl h2
      · right; rw [frontalKeysL_cons]; exact List.mem_append_left _ h2
    · right; rw [frontalKeysL_cons]; exact List.mem_append_right _ h1

/-! ## Key sets of the backSubstitute loop -/

theorem solveOtherRHS_ok_keys (c : GaussianConditional) (par rhs ps : VectorValues)
    (h : c.solveOtherRHS par rhs = .ok ps) : keysOf ps = c.frontalKeys := by
  simp only [GaussianConditional.solveOtherRHS] at h
  cases h1 : lookupAll par (fun k => .missingParent k) c.parents with
  | error e => simp [h1] at h
  | ok xps =>
    simp only [h1] at h
    cases h2 : lookupAll rhs (fun k => .missingKey k) c.frontalKeys with
    | error e => simp [h2] at h
    | ok yf =>
      simp only [h2] at h
      injection h with he
      rw [← he, splitVec_keys]
      rfl

theorem backSubstituteRev_cons_ok {rhs : VectorValues} {c : GaussianConditional}
    {L : List GaussianConditional} {result s1 : VectorValues}
    (h : backSubstituteRev rhs (c :: L) result = .ok s1) :
    ∃ ps r2, c.solveOtherRHS result rhs = .ok ps ∧ insertAll result ps = .ok r2 ∧
      backSubstituteRev rhs L r2 = .ok s1 := by
  simp only [backSubstituteRev] at h
  cases hs : c.solveOtherRHS result rhs with
  | error e => simp [hs] at h
  | ok ps =>
    simp only [hs] at h
    cases hi : insertAll result ps with
    | error e => simp [hi] at h
    | ok r2 =>
      simp only [hi] at h
      exact ⟨ps, r2, rfl, hi, h⟩

theorem backSubstituteRev_ok_keys : ∀ (L : List GaussianConditional)
    (rhs result s1 : VectorValues), backSubstituteRev rhs L result = .ok s1 →
    ∀ k, k ∈ keysOf s1 ↔ k ∈ keysOf result ∨ k ∈ frontalKeysL L := by
  intro L
  induction L with
  | nil =>
    intro rhs result s1 h k
    simp only [backSubstituteRev] at h
    injection h with he
    rw [he, frontalKeysL_nil]
    simp
  | cons c L ih =>
    intro rhs result s1 h k
    obtain ⟨ps, r2, hs, hi, hrest⟩ := backSubstituteRev_cons_ok h
    have hr2 : r2 = result ++ ps := insertAll_ok_append ps result r2 hi
    have hkeys : keysOf ps = c.frontalKeys := solveOtherRHS_ok_keys c result rhs ps hs
    rw [ih rhs r2 s1 hrest k, hr2, keysOf_append, hkeys, frontalKeysL_cons]
    simp only [List.mem_append]
    tauto

/-! ## Passthrough analysis of the transpose solve -/

theorem parentKeysL_cons (c : GaussianConditional) (L : List GaussianConditional) :
    parentKeysL (c :: L) = c.parents ++ parentKeysL L := by
  simp [parentKeysL]

theorem updateValue_lookup_ne {k k0 : Key} (s : VectorValues) (v : Vec) (h : k ≠ k0) :
    lookupVV k (updateValue s k0 v) = lookupVV k s := by
  induction s with
  | nil => rfl
  | cons p s ih =>
    simp only [updateValue, List.map_cons] at *
    by_cases hp : p.1 = k0
    · rw [if_pos hp]
      show lookupVV k ((k0, v) :: _) = lookupVV k (p :: s)
      simp only [lookupVV]
      rw [if_neg h, if_neg (by rw [hp]; exact h)]
      exact ih
    · rw [if_neg hp]
      show lookupVV k (p :: _) = lookupVV k (p :: s)
      simp only [lookupVV]
      by_cases hk : k = p.1
      · rw [if_pos hk, if_pos hk]
      · rw [if_neg hk, if_neg hk]
        exact ih

theorem writeAll_lookup_ne {k : Key} : ∀ (ps : VectorValues) (s : VectorValues),
    k ∉ keysOf ps → lookupVV k (writeAll s ps) = lookupVV k s := by
  intro ps
  induction ps with
  | nil => intro s _; rfl
  | cons p ps ih =>
    intro s hk
    simp only [keysOf, List.map_cons, List.mem_cons] at hk
    push_neg at hk
    show lookupVV k (writeAll (updateValue s p.1 p.2) ps) = lookupVV k s
    rw [ih (updateValue s p.1 p.2) hk.2]
    exact updateValue_lookup_ne s p.2 hk.1

theorem correctParents_lookup_ne {k : Key} (z : Vec) :
    ∀ (ps : List (Key × Mat)) (acc out : VectorValues),
    k ∉ ps.map (·.1) → correctParents z ps acc = .ok out →
    lookupVV k out = lookupVV k acc := by
  intro ps
  induction ps with
  | nil =>
    intro acc out _ h
    injection h with he
    rw [← he]
  | cons pS ps ih =>
    intro acc out hk h
    simp only [List.map_cons, List.mem_cons] at hk
    push_neg at hk
    simp only [correctParents] at h
    cases hl : lookupVV pS.1 acc with
    | none => simp [hl] at h
    | some pv =>
      simp only [hl] at h
      rw [ih _ out hk.2 h]
      exact updateValue_lookup_ne acc _ hk.1

theorem stip_lookup_ne (c : GaussianConditional) (gy out : VectorValues) (k : Key)
    (h : c.solveTransposeInPlace gy = .ok out)
    (hf : k ∉ c.frontalKeys) (hp : k ∉ c.parents) :
    lookupVV k out = lookupVV k gy := by
  simp only [GaussianConditional.solveTransposeInPlace] at h
  cases hl : lookupAll gy (fun k => .missingKey k) c.frontalKeys with
  | error e => simp [hl] at h
  | ok fvs =>
    simp only [hl] at h
    have hzip : k ∉ (c.parents.zip c.S).map (·.1) := by
      intro hc
      obtain ⟨p, hpmem, hpe⟩ := List.mem_map.mp hc
      exact hp (hpe ▸ (List.of_mem_zip hpmem).1)
    rw [correctParents_lookup_ne _ _ _ out hzip h]
    refine writeAll_lookup_ne _ gy ?_
    rw [splitVec_keys]
    exact hf

theorem bstGo_lookup_ne : ∀ (L : List GaussianConditional) (gy out : VectorValues)
    (k : Key), bstGo L gy = .ok out → k ∉ frontalKeysL L → k ∉ parentKeysL L →
    lookupVV k out = lookupVV k gy := by
  intro L
  induction L with
  | nil =>
    intro gy out k h _ _
    injection h with he
    rw [← he]
  | cons c L ih =>
    intro gy out k h hf hp
    rw [frontalKeysL_cons] at hf
    rw [parentKeysL_cons] at hp
    simp only [List.mem_append] at hf hp
    push_neg at hf hp
    simp only [bstGo] at h
    cases hs : c.solveTransposeInPlace gy with
    | error e => simp [hs] at h
    | ok gy1 =>
      simp only [hs] at h
      rw [ih gy1 out k h hf.2 hp.2]
      exact stip_lookup_ne c gy gy1 k hs hf.1 hp.1

/-! ## Determinant lemmas -/

theorem foldl_add_condLogDet : ∀ (L : List GaussianConditional) (a : ℝ),
    L.foldl (fun acc c => acc + condLogDet c) a = a + (L.map condLogDet).sum := by
  intro L
  induction L with
  | nil => intro a; simp
  | cons c L ih =>
    intro a
    simp only [List.foldl_cons, List.map_cons, List.sum_cons, ih (a + condLogDet c)]
    ring

theorem zipWith_div_ones : ∀ (v : Vec) (n : Nat), v.length ≤ n →
    List.zipWith (· / ·) v (List.replicate n 1) = v := by
  intro v
  induction v with
  | nil => intro n _; simp
  | cons a v ih =>
    intro n hn
    cases n with
    | zero => simp at hn
    | succ n =>
      simp only [List.replicate_succ, List.zipWith_cons_cons, div_one]
      rw [ih n (by simpa using hn)]

theorem condLogDet_unified (c : GaussianConditional) :
    condLogDet c = ((whitenVec (sigmasOf c) (diagOf c.R)).map
      (fun q => Real.log (q : ℝ))).sum := by
  cases hm : c.model with
  | some sg => simp [condLogDet, sigmasOf, hm]
  | none =>
    simp only [condLogDet, sigmasOf, hm, Option.getD_none, whitenVec]
    rw [zipWith_div_ones (diagOf c.R) c.R.length (by rw [diagOf_length])]

/-! ## Claim theorems -/

/-- C3: for every Gaussian Bayes network, `determinant()` returns exactly
`exp(logDeterminant())`, on all inputs including degenerate ones. -/
theorem determinant_eq_exp_logDeterminant :
    ∀ net : GaussianBayesNet,
      GaussianBayesNet.determinant net = Real.exp (GaussianBayesNet.logDeterminant net) :=
  fun _ => rfl

/-- C10: for the Bayes network containing zero conditionals,
`logDeterminant()` returns exactly 0 and `determinant()` returns exactly 1,
with no error raised. -/
theorem empty_net_determinants :
    GaussianBayesNet.logDeterminant [] = 0 ∧ GaussianBayesNet.determinant [] = 1 := by
  constructor
  · rfl
  · show Real.exp (GaussianBayesNet.logDeterminant []) = 1
    rw [show GaussianBayesNet.logDeterminant [] = 0 from rfl, Real.exp_zero]

/-- C7: `gradient(x0)`, `gradientAtZero()`, `error(x)`, and `matrix()` each
return exactly the result of the corresponding query evaluated on the
weighted-residual factor graph reconstructed (by `toFactorGraph`, one
factor per conditional with the same R/S/d/noise-model data) from the same
ordered conditional sequence. -/
theorem queries_delegate_to_factor_graph :
    (∀ (net : GaussianBayesNet) (x0 : VectorValues),
      GaussianBayesNet.gradient net x0 = fgGradient (toFactorGraph net) x0) ∧
    (∀ net : GaussianBayesNet,
      GaussianBayesNet.gradientAtZero net = fgGradientAtZero (toFactorGraph net)) ∧
    (∀ (net : GaussianBayesNet) (x : VectorValues),
      GaussianBayesNet.error net x = fgError (toFactorGraph net) x) ∧
    (∀ net : GaussianBayesNet,
      GaussianBayesNet.matrix net = fgJacobian (toFactorGraph net)) :=
  ⟨fun _ _ => rfl, fun _ => rfl, fun _ _ => rfl, fun _ => rfl⟩

/-- C8: for the Bayes network containing zero conditionals and any
non-empty supplied partial assignment, `optimize` returns exactly that
assignment, unchanged. -/
theorem optimize_empty_net_returns_input :
    ∀ solutionForMissing : VectorValues, solutionForMissing ≠ [] →
      GaussianBayesNet.optimize [] solutionForMissing = .ok solutionForMissing :=
  fun _ _ => rfl

/-- Witness for C8 at a concrete non-empty assignment. -/
theorem optimize_empty_net_returns_input_witness :
    GaussianBayesNet.optimize [] [(5, [1])] = .ok [(5, [1])] :=
  optimize_empty_net_returns_input [(5, [1])] (by simp)

/-- C6: during optimize, inserting a solved frontal key already present in
the growing assignment is a duplicate-variable error, and the operation is
all-or-nothing: on success the returned assignment's keys are exactly the
supplied keys plus every frontal key (a full assignment); otherwise the
whole operation fails with an error and no assignment is returned. -/
theorem optimize_duplicate_error_all_or_nothing :
    (∀ (s : VectorValues) (k : Key) (v : Vec), k ∈ keysOf s →
      insertOne s (k, v) = .error (.duplicateVariable k)) ∧
    (∀ (net : GaussianBayesNet) (solutionForMissing s1 : VectorValues),
      GaussianBayesNet.optimize net solutionForMissing = .ok s1 →
      ∀ k, k ∈ keysOf s1 ↔ k ∈ keysOf solutionForMissing ∨ k ∈ frontalKeysL net) := by
  constructor
  · exact insertOne_dup
  · intro net sol s1 h k
    rw [optimizeRev_ok_keys net.reverse sol s1 h k, mem_frontalKeysL_reverse]

/-- Witness for C6: a duplicate insert errors, and the solved example
network's output keys are exactly its frontal keys. -/
theorem optimize_duplicate_error_all_or_nothing_witness :
    insertOne [(1, [0])] (1, [2]) = .error (.duplicateVariable 1) :=
  optimize_duplicate_error_all_or_nothing.1 [(1, [0])] 1 [2] (by simp [keysOf])

/-- C9: `backSubstitute(rhs)` starts from an empty assignment and inserts
only the solved frontal blocks in reverse order: on success the key set of
the returned assignment is exactly the union of the conditionals' frontal
keys, and rhs entries for non-frontal keys do not appear (no
passthrough). -/
theorem backSubstitute_keys_exactly_frontals :
    ∀ (net : GaussianBayesNet) (rhs r : VectorValues),
      GaussianBayesNet.backSubstitute net rhs = .ok r →
      ∀ k, k ∈ keysOf r ↔ k ∈ frontalKeysL net := by
  intro net rhs r h k
  have := backSubstituteRev_ok_keys net.reverse rhs [] r h k
  rw [this, mem_frontalKeysL_reverse]
  simp [keysOf]

/-- Witness for C9: applying the key-set theorem to the example network and
a right-hand side carrying the extra key 9. -/
theorem backSubstitute_keys_exactly_frontals_witness :
    1 ∈ keysOf [(2, [6]), (1, [-1])] :=
  (backSubstitute_keys_exactly_frontals exNet [(1, [4]), (2, [6]), (9, [9])]
    [(2, [6]), (1, [-1])]
    (by norm_num [GaussianBayesNet.backSubstitute, backSubstituteRev,
      GaussianConditional.solveOtherRHS, lookupAll, lookupVV, insertAll, insertOne,
      keysOf, splitVec, backSub, backSubF, sumVecs, subVec, addVec, unwhitenVec,
      mulVec, dotProd, GaussianConditional.dim, GaussianConditional.frontalKeys,
      condA, condB, exNet]) 1).mpr
    (by decide)

/-- C2: `logDeterminant()` equals the sum over all conditionals of the
logarithms of the (noise-model-whitened, unit scale when absent) R-diagonal
entries; attaching a noise model of per-row scale 2 to conditional A's
single row changes `logDeterminant()` by exactly `-log 2`. -/
theorem logDeterminant_whitened_diag_sum :
    (∀ net : GaussianBayesNet, GaussianBayesNet.logDeterminant net
      = (net.map (fun c => ((whitenVec (sigmasOf c) (diagOf c.R)).map
          (fun q => Real.log (q : ℝ))).sum)).sum) ∧
    GaussianBayesNet.logDeterminant exNetW
      = GaussianBayesNet.logDeterminant exNet - Real.log 2 := by
  constructor
  · intro net
    rw [GaussianBayesNet.logDeterminant, foldl_add_condLogDet, zero_add]
    congr 1
    exact List.map_congr_left (fun c _ => condLogDet_unified c)
  · norm_num [GaussianBayesNet.logDeterminant, condLogDet, whitenVec, diagOf,
      condAW, condA, condB, exNet, exNetW, List.enum, List.enumFrom, List.getD,
      Real.log_one]

/-- C4 counterexample: the claim that every input key never referenced as a
frontal passes through `backSubstituteTranspose` unchanged is false: a key
referenced only as a parent receives the propagated correction. -/
theorem backSubstituteTranspose_passthrough_cex :
    ¬ (∀ (net : GaussianBayesNet) (gx gy : VectorValues),
        GaussianBayesNet.backSubstituteTranspose net gx = .ok gy →
        ∀ k, k ∈ keysOf gx → k ∉ frontalKeysL net →
        lookupVV k gy = lookupVV k gx) := by
  intro h
  have hrun : GaussianBayesNet.backSubstituteTranspose [cexCond] [(1, [1]), (2, [0])]
      = .ok [(1, [1]), (2, [-1])] := by
    norm_num [GaussianBayesNet.backSubstituteTranspose, bstGo,
      GaussianConditional.solveTransposeInPlace, lookupAll, lookupVV, correctParents,
      updateValue, writeAll, splitVec, forwardSub, matTranspose, List.range_succ,
      List.getD, subVec, mulVec, dotProd, unwhitenVec,
      GaussianConditional.frontalKeys, cexCond]
  have h2 := h [cexCond] [(1, [1]), (2, [0])] [(1, [1]), (2, [-1])] hrun 2
    (by simp [keysOf]) (by decide)
  norm_num [lookupVV] at h2

/-- C4 amended: every key that is never referenced as a frontal and never
referenced as a parent by any conditional keeps its input value in the
output of `backSubstituteTranspose` (truly untouched variables pass
through). -/
theorem backSubstituteTranspose_untouched_passthrough :
    ∀ (net : GaussianBayesNet) (gx gy : VectorValues),
      GaussianBayesNet.backSubstituteTranspose net gx = .ok gy →
      ∀ k, k ∉ frontalKeysL net → k ∉ parentKeysL net →
      lookupVV k gy = lookupVV k gx :=
  fun net gx gy h k hf hp => bstGo_lookup_ne net gx gy k h hf hp

/-- Witness for the amended C4: key 3 is untouched by the single-conditional
network and passes through. -/
theorem backSubstituteTranspose_untouched_passthrough_witness :
    lookupVV 3 ([(1, [1]), (2, [-1]), (3, [7])] : VectorValues)
      = lookupVV 3 ([(1, [1]), (2, [0]), (3, [7])] : VectorValues) :=
  backSubstituteTranspose_untouched_passthrough [cexCond]
    [(1, [1]), (2, [0]), (3, [7])] [(1, [1]), (2, [-1]), (3, [7])]
    (by norm_num [GaussianBayesNet.backSubstituteTranspose, bstGo,
      GaussianConditional.solveTransposeInPlace, lookupAll, lookupVV, correctParents,
      updateValue, writeAll, splitVec, forwardSub, matTranspose, List.range_succ,
      List.getD, subVec, mulVec, dotProd, unwhitenVec,
      GaussianConditional.frontalKeys, cexCond])
    3 (by decide) (by decide)

/-- C5: in a Bayes network (distinct frontal keys) in which some
conditional has a parent key that is not a frontal of any later-positioned
conditional, and with no externally supplied assignment, `optimize()`
raises a missing-parent error rather than returning an assignment. -/
theorem optimize_reversed_missing_parent :
    ∀ (N1 N2 : List GaussianConditional) (c : GaussianConditional) (k : Key),
      k ∈ c.parents → k ∉ frontalKeysL N2 →
      (frontalKeysL (N1 ++ c :: N2)).Nodup →
      ∃ k2, GaussianBayesNet.optimize (N1 ++ c :: N2) []
        = .error (.missingParent k2) := by
  intro N1 N2 c k hk hknot hnd
  have hrev : (N1 ++ c :: N2).reverse = N2.reverse ++ c :: N1.reverse := by
    simp
  have hndrev : (frontalKeysL (N1 ++ c :: N2).reverse).Nodup :=
    nodup_frontalKeysL_reverse _ hnd
  have hdis : ∀ k2 ∈ frontalKeysL (N1 ++ c :: N2).reverse,
      k2 ∉ keysOf ([] : VectorValues) := by
    intro k2 _
    simp [keysOf]
  rcases optimizeRev_ok_or ((N1 ++ c :: N2).reverse) [] hndrev hdis with
    ⟨s1, hok⟩ | ⟨k2, herr⟩
  · exfalso
    rw [hrev] at hok
    rcases optimizeRev_ok_parents N2.reverse c N1.reverse [] s1 hok k hk with h | h
    · simp [keysOf] at h
    · exact hknot ((mem_frontalKeysL_reverse N2 k).mp h)
  · exact ⟨k2, herr⟩

/-- Witness for C5: the example chain with its stored sequence reversed. -/
theorem optimize_reversed_missing_parent_witness :
    ∃ k2, GaussianBayesNet.optimize ([condB] ++ condA :: [])
      [] = .error (.missingParent k2) :=
  optimize_reversed_missing_parent [condB] [] condA 2 (by decide) (by decide)
    (by decide)

/-- C1: whenever every conditional's parent keys are resolvable (by
later-positioned conditionals or the supplied partial assignment) in a
well-formed network with distinct frontal keys, `optimize` returns a
complete assignment in which every conditional's triangular equation
`R·x_f = y - Σ_j S_j·x_p_j` holds; in particular, on the hand-built
two-conditional chain, `optimize()` yields `x2 = 3` and `x1 = 1`. -/
theorem optimize_solves_each_conditional :
    (∀ (net : GaussianBayesNet) (solutionForMissing : VectorValues),
      (∀ c ∈ net, c.wfB = true) →
      resolvableRevB net.reverse (keysOf solutionForMissing) = true →
      (frontalKeysL net).Nodup →
      (∀ k ∈ frontalKeysL net, k ∉ keysOf solutionForMissing) →
      ∃ s1, GaussianBayesNet.optimize net solutionForMissing = .ok s1 ∧
        (∀ k, k ∈ keysOf s1 ↔ k ∈ keysOf solutionForMissing ∨ k ∈ frontalKeysL net) ∧
        (∀ c ∈ net, mulVec c.R (frontalVecOf c s1)
          = condRhs c (c.parents.map (valueOf s1)))) ∧
    GaussianBayesNet.optimize exNet [] = .ok [(2, [3]), (1, [1])] := by
  constructor
  · intro net sol hwf hres hnd hdis
    obtain ⟨s1, hok, _, hkeys, heqs⟩ :=
      optimizeRev_sound net.reverse sol
        (fun c hc => hwf c (List.mem_reverse.mp hc))
        hres
        (nodup_frontalKeysL_reverse net hnd)
        (fun k hk => hdis k ((mem_frontalKeysL_reverse net k).mp hk))
    refine ⟨s1, hok, ?_, ?_⟩
    · intro k
      rw [hkeys k, mem_frontalKeysL_reverse]
    · intro c hc
      exact heqs c (List.mem_reverse.mpr hc)
  · norm_num [GaussianBayesNet.optimize, optimizeRev, GaussianConditional.solve,
      lookupAll, lookupVV, insertAll, insertOne, keysOf, splitVec, backSub,
      backSubF, condRhs, rhsBase, sumVecs, subVec, addVec, unwhitenVec, mulVec,
      dotProd, GaussianConditional.dim, GaussianConditional.frontalKeys, condA,
      condB, exNet]

/-- Witness for C1: the general theorem instantiated at the example chain. -/
theorem optimize_solves_each_conditional_witness :
    ∃ s1, GaussianBayesNet.optimize exNet [] = .ok s1 ∧
      (∀ k, k ∈ keysOf s1 ↔ k ∈ keysOf ([] : VectorValues) ∨ k ∈ frontalKeysL exNet) ∧
      (∀ c ∈ exNet, mulVec c.R (frontalVecOf c s1)
        = condRhs c (c.parents.map (valueOf s1))) :=
  optimize_solves_each_conditional.1 exNet [] (by decide) (by decide) (by decide)
    (by decide)
